import Mathlib

/-!
Verification of the xkcd-db mirroring tool.

The development shallowly embeds the Go sources:
- `missingComics` (the Archive Scanner, identical in both source files),
- `splitSlice` (the Batcher, `xkcd.go`),
- the per-item fetch worker body of `getComic` (the flag/semaphore variant,
  which writes a metadata file only when the corresponding field is non-empty),
- the counting-semaphore worker pool of `getComic` as a small-step
  transition system,
- the prelude of `main` (archive-path normalization).

External effects (HTTP fetches, `os.Stat`, `os.Mkdir`, file creation and
writes) are modelled as oracles supplied in environment records: each oracle
value records the outcome the external world would give to the corresponding
call site.  `log.Fatalln` is modelled as a fatal outcome that stops the run.
-/

/-- Outcome of `os.Stat` as the Go code discriminates it: success,
an error satisfying `os.IsNotExist`, or any other error. -/
inductive StatResult
  | ok
  | notExist
  | otherError
deriving DecidableEq

/-- `true` exactly when `os.IsNotExist(err)` holds for the stat outcome. -/
def isNotExist : StatResult → Bool
  | StatResult.notExist => true
  | _ => false

/-- One decimal digit character, as produced by `strconv.Itoa`. -/
def digitChar (d : Nat) : Char :=
  match d with
  | 0 => '0' | 1 => '1' | 2 => '2' | 3 => '3' | 4 => '4'
  | 5 => '5' | 6 => '6' | 7 => '7' | 8 => '8' | _ => '9'

/-- Digit-accumulating loop of `strconv.Itoa`; `fuel` bounds the number of
divisions by 10 (any `fuel ≥ n` gives the full digit string). -/
def itoaCore : Nat → Nat → List Char → List Char
  | 0, _, acc => acc
  | fuel + 1, n, acc =>
    if n = 0 then acc else itoaCore fuel (n / 10) (digitChar (n % 10) :: acc)

/-- Embedding of Go's `strconv.Itoa` on natural numbers: the decimal
representation of `n` as a string. -/
def itoa (n : Nat) : String :=
  if n = 0 then "0" else String.mk (itoaCore n n [])

lemma itoaCore_eq_digits (fuel : Nat) :
    ∀ n acc, n ≤ fuel →
      itoaCore fuel n acc = ((Nat.digits 10 n).map digitChar).reverse ++ acc := by
  induction fuel with
  | zero =>
    intro n acc hn
    interval_cases n
    simp [itoaCore]
  | succ fuel ih =>
    intro n acc hn
    by_cases h0 : n = 0
    · subst h0; simp [itoaCore]
    · have hpos : 0 < n := Nat.pos_of_ne_zero h0
      have hdiv : n / 10 < n := Nat.div_lt_self hpos (by norm_num)
      have hle : n / 10 ≤ fuel := by omega
      rw [itoaCore, if_neg h0, ih (n / 10) _ hle,
        Nat.digits_def' (by norm_num : (1:Nat) < 10) hpos]
      simp

lemma digitChar_inj : ∀ d₁, d₁ < 10 → ∀ d₂, d₂ < 10 →
    digitChar d₁ = digitChar d₂ → d₁ = d₂ := by decide

lemma map_digitChar_inj :
    ∀ (l₁ l₂ : List Nat), (∀ d ∈ l₁, d < 10) → (∀ d ∈ l₂, d < 10) →
      l₁.map digitChar = l₂.map digitChar → l₁ = l₂ := by
  intro l₁
  induction l₁ with
  | nil => intro l₂ _ _ h; cases l₂ <;> simp_all
  | cons a t ih =>
    intro l₂ h₁ h₂ h
    cases l₂ with
    | nil => simp_all
    | cons b t₂ =>
      simp only [List.map_cons, List.cons.injEq] at h
      have ha : a = b :=
        digitChar_inj a (h₁ a (by simp)) b (h₂ b (by simp)) h.1
      have ht : t = t₂ :=
        ih t₂ (fun d hd => h₁ d (by simp [hd])) (fun d hd => h₂ d (by simp [hd])) h.2
      rw [ha, ht]

lemma itoa_digits (n : Nat) (hn : n ≠ 0) :
    itoa n = String.mk ((Nat.digits 10 n).map digitChar).reverse := by
  rw [itoa, if_neg hn, itoaCore_eq_digits n n [] (le_refl n), List.append_nil]

/-- `strconv.Itoa` is injective: distinct indices have distinct decimal
strings. -/
lemma itoa_inj {m n : Nat} (h : itoa m = itoa n) : m = n := by
  have digitsLt : ∀ k, ∀ d ∈ Nat.digits 10 k, d < 10 := by
    intro k d hd
    exact Nat.digits_lt_base (by norm_num) hd
  by_cases hm : m = 0 <;> by_cases hn : n = 0
  · rw [hm, hn]
  · exfalso
    rw [hm, itoa_digits n hn] at h
    have hdata : ('0' :: []) = ((Nat.digits 10 n).map digitChar).reverse := by
      have := congrArg String.data h
      simpa [itoa] using this
    have hrev : (Nat.digits 10 n).map digitChar = ['0'] := by
      have := congrArg List.reverse hdata
      simpa using this.symm
    have hzero : Nat.digits 10 n = [0] := by
      have h0 : (0 : Nat) < 10 := by norm_num
      have := map_digitChar_inj (Nat.digits 10 n) [0] (digitsLt n)
        (by intro d hd; simp at hd; omega) (by simpa [digitChar] using hrev)
      exact this
    have : n = 0 := by
      have := Nat.ofDigits_digits 10 n
      rw [hzero] at this
      simpa [Nat.ofDigits] using this.symm
    exact hn this
  · exfalso
    rw [hn, itoa_digits m hm] at h
    have hdata : ((Nat.digits 10 m).map digitChar).reverse = ('0' :: []) := by
      have := congrArg String.data h
      simpa [itoa] using this
    have hrev : (Nat.digits 10 m).map digitChar = ['0'] := by
      have := congrArg List.reverse hdata
      simpa using this
    have hzero : Nat.digits 10 m = [0] := by
      exact map_digitChar_inj (Nat.digits 10 m) [0] (digitsLt m)
        (by intro d hd; simp at hd; omega) (by simpa [digitChar] using hrev)
    have : m = 0 := by
      have := Nat.ofDigits_digits 10 m
      rw [hzero] at this
      simpa [Nat.ofDigits] using this.symm
    exact hm this
  · rw [itoa_digits m hm, itoa_digits n hn] at h
    have hdata : ((Nat.digits 10 m).map digitChar).reverse
        = ((Nat.digits 10 n).map digitChar).reverse := congrArg String.data h
    have hmap : (Nat.digits 10 m).map digitChar = (Nat.digits 10 n).map digitChar := by
      have := congrArg List.reverse hdata
      simpa using this
    have hdig : Nat.digits 10 m = Nat.digits 10 n :=
      map_digitChar_inj _ _ (digitsLt m) (digitsLt n) hmap
    exact Nat.digits.injective 10 hdig

/-- Loop body of `missingComics`, one fuel unit per loop iteration
(`for i := 1; i <= numComics; i++`): skip index 404, otherwise stat the
would-be subdirectory `dbPath + strconv.Itoa(i)` and append the index's
decimal string to the accumulator exactly when `os.IsNotExist` holds. -/
def missingComicsAux (dbPath : String) (stat : String → StatResult) :
    Nat → Nat → List String → List String
  | 0, _, dlList => dlList
  | fuel + 1, i, dlList =>
    missingComicsAux dbPath stat fuel (i + 1)
      (if i = 404 then dlList
       else if isNotExist (stat (dbPath ++ itoa i)) then dlList ++ [itoa i]
       else dlList)

/-- Embedding of `missingComics(numComics, dbPath)`: the filesystem is the
oracle `stat`, giving the `os.Stat` outcome for each probed path. -/
def missingComics (numComics : Nat) (dbPath : String)
    (stat : String → StatResult) : List String :=
  missingComicsAux dbPath stat numComics 1 []

/-- The predicate an index must satisfy to be appended by the scan loop. -/
def missingPred (dbPath : String) (stat : String → StatResult) (i : Nat) : Bool :=
  decide (i ≠ 404) && isNotExist (stat (dbPath ++ itoa i))

lemma missingComicsAux_eq (dbPath : String) (stat : String → StatResult) :
    ∀ (fuel i : Nat) (acc : List String),
      missingComicsAux dbPath stat fuel i acc
        = acc ++ ((List.range' i fuel).filter (missingPred dbPath stat)).map itoa := by
  intro fuel
  induction fuel with
  | zero => intro i acc; simp [missingComicsAux, List.range']
  | succ fuel ih =>
    intro i acc
    have hrange : List.range' i (fuel + 1) = i :: List.range' (i + 1) fuel := rfl
    rw [missingComicsAux, ih, hrange, List.filter_cons]
    by_cases h404 : i = 404
    · subst h404
      have hp : missingPred dbPath stat 404 = false := by
        simp [missingPred]
      simp [hp]
    · by_cases hex : isNotExist (stat (dbPath ++ itoa i)) = true
      · have : missingPred dbPath stat i = true := by
          simp [missingPred, h404, hex]
        simp [h404, hex, this]
      · have : missingPred dbPath stat i = false := by
          simp [missingPred, h404]
          simpa using hex
        simp [h404, hex, this]

/-- The scan is the in-order filter of `[1, N]` by the append condition. -/
lemma missingComics_eq (numComics : Nat) (dbPath : String)
    (stat : String → StatResult) :
    missingComics numComics dbPath stat
      = ((List.range' 1 numComics).filter (missingPred dbPath stat)).map itoa := by
  rw [missingComics, missingComicsAux_eq]
  simp

lemma itoa_404 : itoa 404 = "404" := rfl

/-- The `os.Stat` oracle induced by an archive state given as the set of
existing directories: stat succeeds on an existing path and reports
not-exist otherwise. -/
def statOfDirs (dirs : String → Bool) : String → StatResult :=
  fun pth => if dirs pth then StatResult.ok else StatResult.notExist

/-- C1: Archive Scanner correctness.  For every upper bound `N ≥ 1` and
archive state `dirs`, `missingComics` returns exactly the indices
`i ∈ [1, N]` with `i ≠ 404` whose same-named subdirectory does not exist
under the archive root, as decimal strings in increasing index order
(the in-order filter of `range' 1 N`); index 404 is never in the result
for any `N ≥ 404`; and the result is the empty sequence when every such
directory exists. -/
theorem missingComics_scanner_correct (N : Nat) (dbPath : String)
    (dirs : String → Bool) (hN : 1 ≤ N) :
    missingComics N dbPath (statOfDirs dirs)
      = ((List.range' 1 N).filter
          (fun i => decide (i ≠ 404) && !dirs (dbPath ++ itoa i))).map itoa
    ∧ (404 ≤ N → itoa 404 ∉ missingComics N dbPath (statOfDirs dirs))
    ∧ ((∀ i, 1 ≤ i → i ≤ N → i ≠ 404 → dirs (dbPath ++ itoa i) = true) →
        missingComics N dbPath (statOfDirs dirs) = []) := by
  have hpred : ∀ i, missingPred dbPath (statOfDirs dirs) i
      = (decide (i ≠ 404) && !dirs (dbPath ++ itoa i)) := by
    intro i
    by_cases h : dirs (dbPath ++ itoa i) = true <;>
      simp [missingPred, statOfDirs, isNotExist, h]
  refine ⟨?_, ?_, ?_⟩
  · rw [missingComics_eq]
    congr 1
    exact List.filter_congr (fun a _ => hpred a)
  · intro _ hmem
    rw [missingComics_eq] at hmem
    rcases List.mem_map.mp hmem with ⟨j, hj, hji⟩
    have hj404 : j = 404 := itoa_inj hji
    rcases List.mem_filter.mp hj with ⟨_, hpj⟩
    rw [hpred j, hj404] at hpj
    simp at hpj
  · intro hall
    rw [missingComics_eq]
    have : (List.range' 1 N).filter (missingPred dbPath (statOfDirs dirs)) = [] := by
      rw [List.filter_eq_nil_iff]
      intro i hi
      rcases List.mem_range'_1.mp hi with ⟨h1, h2⟩
      rw [hpred i]
      by_cases h404 : i = 404
      · simp [h404]
      · have := hall i h1 (by omega) h404
        simp [this, h404]
    rw [this, List.map_nil]

/-- Witness for C1: a five-comic catalog over an archive that already holds
comic 2 yields the missing list `["1", "3", "4", "5"]`. -/
theorem missingComics_scanner_correct_witness :
    (missingComics 5 "db/" (statOfDirs (fun pth => pth == "db/2"))
        = ((List.range' 1 5).filter
            (fun i => decide (i ≠ 404) && !(("db/" ++ itoa i) == "db/2"))).map itoa
      ∧ (404 ≤ 5 → itoa 404 ∉ missingComics 5 "db/" (statOfDirs (fun pth => pth == "db/2")))
      ∧ ((∀ i, 1 ≤ i → i ≤ 5 → i ≠ 404 → ((("db/" ++ itoa i) == "db/2") = true)) →
          missingComics 5 "db/" (statOfDirs (fun pth => pth == "db/2")) = []))
    ∧ missingComics 5 "db/" (statOfDirs (fun pth => pth == "db/2"))
        = ["1", "3", "4", "5"] :=
  ⟨missingComics_scanner_correct 5 "db/" (fun pth => pth == "db/2") (by decide),
   by decide⟩

/-- The decoded comic metadata record (`type Comic struct`). -/
structure Comic where
  Num : Int
  Img : String
  Transcript : String
  Alt : String
deriving DecidableEq

/-- `splitUrl := strings.Split(comicData.Img, "/"); splitUrl[len(splitUrl)-1]`:
the last element of splitting on `/` is the longest suffix containing no
slash (empty when the URL is empty or ends in a slash). -/
def lastSegment (url : String) : String :=
  String.mk ((url.data.reverse.takeWhile (fun c => c ≠ '/')).reverse)

/-- Per-item oracle record: the outcome the external world gives to each
call the worker body makes, in source order.  `metaResp = none` is a
transport error from the metadata `http.Get`; `some none` is a JSON decode
error; `some (some c)` is a successfully decoded `Comic`.  Each `Bool`
field is `true` when the corresponding `os.Mkdir` / `os.Create` /
`WriteString` / `http.Get` / `io.Copy` call returns without error. -/
structure ItemEnv where
  metaResp : Option (Option Comic)
  mkdirOk : Bool
  createAltOk : Bool
  writeAltOk : Bool
  createTrOk : Bool
  writeTrOk : Bool
  assetRespOk : Bool
  createImgOk : Bool
  copyImgOk : Bool
deriving DecidableEq

/-- How the worker body for one item ends. -/
inductive Outcome
  | metaTransportErr
  | decodeErr
  | fatalFs
  | assetTransportErr
  | noAsset
  | complete
deriving DecidableEq

/-- Observable per-item effects: how the body ended, whether the item's
subdirectory was created, and the names of the files created inside it
(in creation order; a file whose write failed was still created). -/
structure WorkerResult where
  outcome : Outcome
  dirCreated : Bool
  files : List String
deriving DecidableEq

/-- The worker body spawned by `getComic` for one item, from the decoded
metadata fetch to the asset copy.  Mirrors the source order: metadata
`http.Get`, JSON decode, `os.Mkdir`, conditional alt write, conditional
transcript write, asset `http.Get`, empty-filename check, asset create and
copy.  Every failing filesystem call hits `log.Fatalln` (`Outcome.fatalFs`);
failing network calls and decode errors log and return. -/
def getComicItem (env : ItemEnv) (item : String) : WorkerResult :=
  match env.metaResp with
  | none => ⟨Outcome.metaTransportErr, false, []⟩
  | some none => ⟨Outcome.decodeErr, false, []⟩
  | some (some comicData) =>
    if env.mkdirOk = false then ⟨Outcome.fatalFs, false, []⟩ else
    if comicData.Alt ≠ "" ∧ env.createAltOk = false then
      ⟨Outcome.fatalFs, true, []⟩ else
    if comicData.Alt ≠ "" ∧ env.writeAltOk = false then
      ⟨Outcome.fatalFs, true, [item ++ "-alt"]⟩ else
    let altFiles := if comicData.Alt ≠ "" then [item ++ "-alt"] else []
    if comicData.Transcript ≠ "" ∧ env.createTrOk = false then
      ⟨Outcome.fatalFs, true, altFiles⟩ else
    if comicData.Transcript ≠ "" ∧ env.writeTrOk = false then
      ⟨Outcome.fatalFs, true, altFiles ++ [item ++ "-transcript"]⟩ else
    let mdFiles := altFiles ++
      (if comicData.Transcript ≠ "" then [item ++ "-transcript"] else [])
    if env.assetRespOk = false then ⟨Outcome.assetTransportErr, true, mdFiles⟩ else
    let imgName := lastSegment comicData.Img
    if imgName = "" then ⟨Outcome.noAsset, true, mdFiles⟩ else
    if env.createImgOk = false then ⟨Outcome.fatalFs, true, mdFiles⟩ else
    if env.copyImgOk = false then ⟨Outcome.fatalFs, true, mdFiles ++ [imgName]⟩ else
    ⟨Outcome.complete, true, mdFiles ++ [imgName]⟩

/-- Sequentialized run over the work items: each item's worker body runs
with its own oracle; a `log.Fatalln` outcome terminates the whole process
(`true` in the second component means abnormal, non-zero-status exit), so
no later item is processed after it. -/
def runItems : List (String × ItemEnv) → List (String × WorkerResult) × Bool
  | [] => ([], false)
  | (item, env) :: rest =>
    let r := getComicItem env item
    if r.outcome = Outcome.fatalFs then ([(item, r)], true)
    else ((item, r) :: (runItems rest).1, (runItems rest).2)

/-- The per-item results a list of items would produce in isolation. -/
def resultsOf (items : List (String × ItemEnv)) : List (String × WorkerResult) :=
  items.map (fun p => (p.1, getComicItem p.2 p.1))

lemma runItems_append_no_fatal (pre l : List (String × ItemEnv))
    (hpre : ∀ p ∈ pre, (getComicItem p.2 p.1).outcome ≠ Outcome.fatalFs) :
    runItems (pre ++ l) = (resultsOf pre ++ (runItems l).1, (runItems l).2) := by
  induction pre with
  | nil => simp [resultsOf]
  | cons p t ih =>
    rcases p with ⟨item, env⟩
    have hp := hpre ⟨item, env⟩ (by simp)
    have ht : ∀ q ∈ t, (getComicItem q.2 q.1).outcome ≠ Outcome.fatalFs :=
      fun q hq => hpre q (by simp [hq])
    have hstep : runItems (((item, env) :: t) ++ l)
        = ((item, getComicItem env item) :: (runItems (t ++ l)).1,
           (runItems (t ++ l)).2) := by
      simp only [List.cons_append, runItems, if_neg hp]
      rfl
    rw [hstep, ih ht]
    simp [resultsOf]

/-- The alt-text phase of the worker body runs without a filesystem error
(either nothing is written or both create and write succeed). -/
def altPhaseOk (env : ItemEnv) (c : Comic) : Prop :=
  c.Alt = "" ∨ (env.createAltOk = true ∧ env.writeAltOk = true)

/-- The transcript phase of the worker body runs without a filesystem
error. -/
def trPhaseOk (env : ItemEnv) (c : Comic) : Prop :=
  c.Transcript = "" ∨ (env.createTrOk = true ∧ env.writeTrOk = true)

/-- Some filesystem call the worker body actually reaches fails: the
`os.Mkdir`, a reached metadata create/write, or a reached asset
create/copy. -/
def fsFailureReached (env : ItemEnv) (c : Comic) : Prop :=
  env.mkdirOk = false
  ∨ (env.mkdirOk = true ∧ c.Alt ≠ ""
      ∧ (env.createAltOk = false ∨ env.writeAltOk = false))
  ∨ (env.mkdirOk = true ∧ altPhaseOk env c ∧ c.Transcript ≠ ""
      ∧ (env.createTrOk = false ∨ env.writeTrOk = false))
  ∨ (env.mkdirOk = true ∧ altPhaseOk env c ∧ trPhaseOk env c
      ∧ env.assetRespOk = true ∧ lastSegment c.Img ≠ ""
      ∧ (env.createImgOk = false ∨ env.copyImgOk = false))

lemma getComicItem_fatal_of_fsFailure (item : String) (env : ItemEnv) (c : Comic)
    (hmeta : env.metaResp = some (some c)) (hfs : fsFailureReached env c) :
    (getComicItem env item).outcome = Outcome.fatalFs := by
  rcases hfs with hmk | ⟨hmk, hAlt, hcw⟩ | ⟨hmk, haltOk, hTr, hcw⟩
    | ⟨hmk, haltOk, htrOk, har, hseg, hcw⟩
  · simp [getComicItem, hmeta, hmk]
  · rcases hcw with hca | hwa
    · simp [getComicItem, hmeta, hmk, hAlt, hca]
    · by_cases hca : env.createAltOk = false
      · simp [getComicItem, hmeta, hmk, hAlt, hca]
      · simp [getComicItem, hmeta, hmk, hAlt, hca, hwa]
  · rcases haltOk with hA | ⟨hca, hwa⟩ <;>
      rcases hcw with hct | hwt
    · simp [getComicItem, hmeta, hmk, hA, hTr, hct]
    · by_cases hct : env.createTrOk = false
      · simp [getComicItem, hmeta, hmk, hA, hTr, hct]
      · simp [getComicItem, hmeta, hmk, hA, hTr, hct, hwt]
    · simp [getComicItem, hmeta, hmk, hca, hwa, hTr, hct]
    · by_cases hct : env.createTrOk = false
      · simp [getComicItem, hmeta, hmk, hca, hwa, hTr, hct]
      · simp [getComicItem, hmeta, hmk, hca, hwa, hTr, hct, hwt]
  · rcases haltOk with hA | ⟨hca, hwa⟩ <;>
      rcases htrOk with hT | ⟨hct, hwt⟩ <;>
      rcases hcw with hci | hcp
    · simp [getComicItem, hmeta, hmk, hA, hT, har, hseg, hci]
    · by_cases hci : env.createImgOk = false
      · simp [getComicItem, hmeta, hmk, hA, hT, har, hseg, hci]
      · simp [getComicItem, hmeta, hmk, hA, hT, har, hseg, hci, hcp]
    · simp [getComicItem, hmeta, hmk, hA, hct, hwt, har, hseg, hci]
    · by_cases hci : env.createImgOk = false
      · simp [getComicItem, hmeta, hmk, hA, hct, hwt, har, hseg, hci]
      · simp [getComicItem, hmeta, hmk, hA, hct, hwt, har, hseg, hci, hcp]
    · simp [getComicItem, hmeta, hmk, hca, hwa, hT, har, hseg, hci]
    · by_cases hci : env.createImgOk = false
      · simp [getComicItem, hmeta, hmk, hca, hwa, hT, har, hseg, hci]
      · simp [getComicItem, hmeta, hmk, hca, hwa, hT, har, hseg, hci, hcp]
    · simp [getComicItem, hmeta, hmk, hca, hwa, hct, hwt, har, hseg, hci]
    · by_cases hci : env.createImgOk = false
      · simp [getComicItem, hmeta, hmk, hca, hwa, hct, hwt, har, hseg, hci]
      · simp [getComicItem, hmeta, hmk, hca, hwa, hct, hwt, har, hseg, hci, hcp]

/-- C4: metadata-failure isolation.  An item whose metadata HTTP fetch
fails (transport error) or whose metadata decode fails is logged and
abandoned alone: its worker creates no directory and writes no file, the
outcome is not fatal, and every sibling item — before or after it — is
processed exactly as it would be on its own. -/
theorem getComic_metadata_failure_isolated (item : String) (env : ItemEnv)
    (pre rest : List (String × ItemEnv))
    (hmeta : env.metaResp = none ∨ env.metaResp = some none)
    (hpre : ∀ p ∈ pre, (getComicItem p.2 p.1).outcome ≠ Outcome.fatalFs) :
    ((getComicItem env item).outcome = Outcome.metaTransportErr
      ∨ (getComicItem env item).outcome = Outcome.decodeErr)
    ∧ (getComicItem env item).dirCreated = false
    ∧ (getComicItem env item).files = []
    ∧ (getComicItem env item).outcome ≠ Outcome.fatalFs
    ∧ runItems (pre ++ (item, env) :: rest)
        = (resultsOf pre ++ (item, getComicItem env item) :: (runItems rest).1,
           (runItems rest).2) := by
  have hne : (getComicItem env item).outcome ≠ Outcome.fatalFs := by
    rcases hmeta with h | h <;> simp [getComicItem, h]
  refine ⟨?_, ?_, ?_, hne, ?_⟩
  · rcases hmeta with h | h <;> simp [getComicItem, h]
  · rcases hmeta with h | h <;> simp [getComicItem, h]
  · rcases hmeta with h | h <;> simp [getComicItem, h]
  · rw [runItems_append_no_fatal pre ((item, env) :: rest) hpre]
    simp only [runItems, if_neg hne]

/-- An environment whose metadata fetch hits a transport error. -/
def envMetaFail : ItemEnv :=
  ⟨none, true, true, true, true, true, true, true, true⟩

/-- An all-successful environment except that `os.Mkdir` fails. -/
def envMkdirFail : ItemEnv :=
  ⟨some (some ⟨7, "https://imgs.xkcd.com/comics/a.png", "tr", "al"⟩),
    false, true, true, true, true, true, true, true⟩

/-- Witness for C4 at item `"7"` with one healthy sibling after it. -/
theorem getComic_metadata_failure_isolated_witness :
    (((getComicItem envMetaFail "7").outcome = Outcome.metaTransportErr
        ∨ (getComicItem envMetaFail "7").outcome = Outcome.decodeErr)
      ∧ (getComicItem envMetaFail "7").dirCreated = false
      ∧ (getComicItem envMetaFail "7").files = []
      ∧ (getComicItem envMetaFail "7").outcome ≠ Outcome.fatalFs
      ∧ runItems ([] ++ ("7", envMetaFail) :: [("8", envMetaFail)])
          = (resultsOf [] ++ ("7", getComicItem envMetaFail "7")
               :: (runItems [("8", envMetaFail)]).1,
             (runItems [("8", envMetaFail)]).2))
    ∧ runItems [("7", envMetaFail), ("8", envMetaFail)]
        = ([("7", ⟨Outcome.metaTransportErr, false, []⟩),
            ("8", ⟨Outcome.metaTransportErr, false, []⟩)], false) :=
  ⟨getComic_metadata_failure_isolated "7" envMetaFail [] [("8", envMetaFail)]
      (Or.inl rfl) (by simp),
   by decide⟩

/-- C5: fatal filesystem errors.  If an item's worker reaches a failing
`os.Mkdir`, metadata create/write, asset create, or asset byte-copy, the
body ends in `log.Fatalln`: the whole process terminates with a non-zero
exit status and no further item is processed. -/
theorem getComic_fs_failure_fatal (item : String) (env : ItemEnv) (c : Comic)
    (pre rest : List (String × ItemEnv))
    (hmeta : env.metaResp = some (some c))
    (hfs : fsFailureReached env c)
    (hpre : ∀ p ∈ pre, (getComicItem p.2 p.1).outcome ≠ Outcome.fatalFs) :
    (getComicItem env item).outcome = Outcome.fatalFs
    ∧ runItems (pre ++ (item, env) :: rest)
        = (resultsOf pre ++ [(item, getComicItem env item)], true) := by
  have hfatal := getComicItem_fatal_of_fsFailure item env c hmeta hfs
  refine ⟨hfatal, ?_⟩
  rw [runItems_append_no_fatal pre ((item, env) :: rest) hpre]
  simp [runItems, hfatal]

/-- Witness for C5: a failing `os.Mkdir` kills the run before the next
item is reached. -/
theorem getComic_fs_failure_fatal_witness :
    ((getComicItem envMkdirFail "7").outcome = Outcome.fatalFs
      ∧ runItems ([] ++ ("7", envMkdirFail) :: [("8", envMetaFail)])
          = (resultsOf [] ++ [("7", getComicItem envMkdirFail "7")], true))
    ∧ runItems [("7", envMkdirFail), ("8", envMetaFail)]
        = ([("7", ⟨Outcome.fatalFs, false, []⟩)], true) :=
  ⟨getComic_fs_failure_fatal "7" envMkdirFail
      ⟨7, "https://imgs.xkcd.com/comics/a.png", "tr", "al"⟩ [] [("8", envMetaFail)]
      rfl (Or.inl rfl) (by simp),
   by decide⟩

lemma append_ne_empty (a b : String) (hb : b ≠ "") : a ++ b ≠ "" := by
  cases a with
  | mk la =>
    cases b with
    | mk lb =>
      intro h
      have hd : la ++ lb = ([] : List Char) := congrArg String.data h
      have hlb : lb = [] := (List.append_eq_nil.mp hd).2
      exact hb (by rw [hlb])

lemma append_ne_of_suffix_ne (a s t : String) (h : s ≠ t) : a ++ s ≠ a ++ t := by
  cases a with
  | mk la =>
    cases s with
    | mk ls =>
      cases t with
      | mk lt =>
        intro hc
        have hd : la ++ ls = la ++ lt := congrArg String.data hc
        exact h (by rw [List.append_cancel_left hd])

lemma getComicItem_success_eval (item : String) (env : ItemEnv) (c : Comic)
    (hmeta : env.metaResp = some (some c))
    (hs : (getComicItem env item).outcome = Outcome.complete
        ∨ (getComicItem env item).outcome = Outcome.noAsset) :
    getComicItem env item
      = ⟨if lastSegment c.Img ≠ "" then Outcome.complete else Outcome.noAsset,
         true,
         (if c.Alt ≠ "" then [item ++ "-alt"] else [])
           ++ (if c.Transcript ≠ "" then [item ++ "-transcript"] else [])
           ++ (if lastSegment c.Img ≠ "" then [lastSegment c.Img] else [])⟩ := by
  have hnofs : ¬ fsFailureReached env c := by
    intro hf
    have := getComicItem_fatal_of_fsFailure item env c hmeta hf
    rcases hs with hs | hs <;> simp_all
  have hmk : env.mkdirOk = true := by
    cases hb : env.mkdirOk
    · exact absurd (Or.inl hb) hnofs
    · rfl
  have haltOk : altPhaseOk env c := by
    by_cases hA : c.Alt = ""
    · exact Or.inl hA
    · cases hca : env.createAltOk
      · exact absurd (Or.inr (Or.inl ⟨hmk, hA, Or.inl hca⟩)) hnofs
      · cases hwa : env.writeAltOk
        · exact absurd (Or.inr (Or.inl ⟨hmk, hA, Or.inr hwa⟩)) hnofs
        · exact Or.inr ⟨hca, hwa⟩
  have htrOk : trPhaseOk env c := by
    by_cases hT : c.Transcript = ""
    · exact Or.inl hT
    · cases hct : env.createTrOk
      · exact absurd (Or.inr (Or.inr (Or.inl ⟨hmk, haltOk, hT, Or.inl hct⟩))) hnofs
      · cases hwt : env.writeTrOk
        · exact absurd (Or.inr (Or.inr (Or.inl ⟨hmk, haltOk, hT, Or.inr hwt⟩))) hnofs
        · exact Or.inr ⟨hct, hwt⟩
  have har : env.assetRespOk = true := by
    cases h : env.assetRespOk
    · exfalso
      have hbad : (getComicItem env item).outcome = Outcome.assetTransportErr := by
        rcases haltOk with hA | ⟨hca, hwa⟩ <;> rcases htrOk with hT | ⟨hct, hwt⟩
        · simp [getComicItem, hmeta, hmk, h, hA, hT]
        · simp [getComicItem, hmeta, hmk, h, hA, hct, hwt]
        · simp [getComicItem, hmeta, hmk, h, hca, hwa, hT]
        · simp [getComicItem, hmeta, hmk, h, hca, hwa, hct, hwt]
      rcases hs with hs | hs <;> simp_all
    · rfl
  by_cases hseg : lastSegment c.Img = ""
  · rcases haltOk with hA | ⟨hca, hwa⟩ <;> rcases htrOk with hT | ⟨hct, hwt⟩
    · simp [getComicItem, hmeta, hmk, har, hseg, hA, hT]
    · simp [getComicItem, hmeta, hmk, har, hseg, hA, hct, hwt]
    · simp [getComicItem, hmeta, hmk, har, hseg, hca, hwa, hT]
    · simp [getComicItem, hmeta, hmk, har, hseg, hca, hwa, hct, hwt]
  · have hcicp : env.createImgOk = true ∧ env.copyImgOk = true := by
      cases hci : env.createImgOk
      · exact absurd (Or.inr (Or.inr (Or.inr
          ⟨hmk, haltOk, htrOk, har, hseg, Or.inl hci⟩))) hnofs
      · cases hcp : env.copyImgOk
        · exact absurd (Or.inr (Or.inr (Or.inr
            ⟨hmk, haltOk, htrOk, har, hseg, Or.inr hcp⟩))) hnofs
        · exact ⟨rfl, rfl⟩
    rcases hcicp with ⟨hci, hcp⟩
    rcases haltOk with hA | ⟨hca, hwa⟩ <;> rcases htrOk with hT | ⟨hct, hwt⟩
    · simp [getComicItem, hmeta, hmk, har, hseg, hci, hcp, hA, hT]
    · simp [getComicItem, hmeta, hmk, har, hseg, hci, hcp, hA, hct, hwt]
    · simp [getComicItem, hmeta, hmk, har, hseg, hci, hcp, hca, hwa, hT]
    · simp [getComicItem, hmeta, hmk, har, hseg, hci, hcp, hca, hwa, hct, hwt]

/-- C6: empty derived asset filename.  When the decoded `Img` URL has an
empty final path segment (in particular when `Img` itself is empty) and the
calls before the filename check succeeded, the worker treats the item as
having no asset: the outcome is `noAsset` (not an error and not fatal), the
item's directory exists, the files written are exactly the metadata files,
and no asset file is created. -/
theorem getComic_empty_asset_name (item : String) (env : ItemEnv) (c : Comic)
    (hmeta : env.metaResp = some (some c))
    (hseg : lastSegment c.Img = "")
    (hmk : env.mkdirOk = true)
    (hca : env.createAltOk = true) (hwa : env.writeAltOk = true)
    (hct : env.createTrOk = true) (hwt : env.writeTrOk = true)
    (har : env.assetRespOk = true) :
    (getComicItem env item).outcome = Outcome.noAsset
    ∧ (getComicItem env item).dirCreated = true
    ∧ (getComicItem env item).files
        = (if c.Alt ≠ "" then [item ++ "-alt"] else [])
          ++ (if c.Transcript ≠ "" then [item ++ "-transcript"] else [])
    ∧ lastSegment c.Img ∉ (getComicItem env item).files := by
  have hres : getComicItem env item
      = ⟨Outcome.noAsset, true,
          (if c.Alt ≠ "" then [item ++ "-alt"] else [])
            ++ (if c.Transcript ≠ "" then [item ++ "-transcript"] else [])⟩ := by
    simp [getComicItem, hmeta, hmk, hca, hwa, hct, hwt, har, hseg]
  rw [hres, hseg]
  refine ⟨rfl, rfl, rfl, ?_⟩
  have hAlt : (item ++ "-alt") ≠ "" := append_ne_empty item "-alt" (by decide)
  have hTr : (item ++ "-transcript") ≠ "" := append_ne_empty item "-transcript" (by decide)
  intro hmem
  rcases List.mem_append.mp hmem with h | h
  · by_cases hA : c.Alt ≠ ""
    · rw [if_pos hA] at h; simp at h; exact hAlt h.symm
    · rw [if_neg hA] at h; simp at h
  · by_cases hT : c.Transcript ≠ ""
    · rw [if_pos hT] at h; simp at h; exact hTr h.symm
    · rw [if_neg hT] at h; simp at h

/-- Witness for C6 at the empty `Img` string itself. -/
theorem getComic_empty_asset_name_witness :
    ((getComicItem ⟨some (some ⟨100, "", "", "alt text"⟩),
          true, true, true, true, true, true, true, true⟩ "100").outcome
        = Outcome.noAsset
      ∧ (getComicItem ⟨some (some ⟨100, "", "", "alt text"⟩),
          true, true, true, true, true, true, true, true⟩ "100").dirCreated = true
      ∧ (getComicItem ⟨some (some ⟨100, "", "", "alt text"⟩),
          true, true, true, true, true, true, true, true⟩ "100").files
          = (if (⟨100, "", "", "alt text"⟩ : Comic).Alt ≠ ""
              then ["100" ++ "-alt"] else [])
            ++ (if (⟨100, "", "", "alt text"⟩ : Comic).Transcript ≠ ""
              then ["100" ++ "-transcript"] else [])
      ∧ lastSegment (⟨100, "", "", "alt text"⟩ : Comic).Img
          ∉ (getComicItem ⟨some (some ⟨100, "", "", "alt text"⟩),
              true, true, true, true, true, true, true, true⟩ "100").files)
    ∧ (getComicItem ⟨some (some ⟨100, "", "", "alt text"⟩),
          true, true, true, true, true, true, true, true⟩ "100").files
        = ["100-alt"] :=
  ⟨getComic_empty_asset_name "100" _ ⟨100, "", "", "alt text"⟩ rfl rfl rfl
      rfl rfl rfl rfl rfl,
   by decide⟩

lemma lastSegment_empty : lastSegment "" = "" := rfl

/-- C3 (amended): completeness after success.  For an item that completes
without error, the files in its subdirectory are exactly one metadata file
per non-empty field plus the asset file when the final path segment of
`Img` is non-empty; provided the derived asset filename does not collide
with a metadata filename, "contains the `{index}-alt` file" (resp.
`-transcript`) is equivalent to the corresponding field being non-empty,
and the asset file is present iff `Img` is non-empty with a non-empty
final segment. -/
theorem getComic_completeness_after_success (item : String) (env : ItemEnv)
    (c : Comic)
    (hmeta : env.metaResp = some (some c))
    (hs : (getComicItem env item).outcome = Outcome.complete
        ∨ (getComicItem env item).outcome = Outcome.noAsset)
    (hcolA : lastSegment c.Img ≠ item ++ "-alt")
    (hcolT : lastSegment c.Img ≠ item ++ "-transcript") :
    (getComicItem env item).files
      = (if c.Alt ≠ "" then [item ++ "-alt"] else [])
        ++ (if c.Transcript ≠ "" then [item ++ "-transcript"] else [])
        ++ (if lastSegment c.Img ≠ "" then [lastSegment c.Img] else [])
    ∧ ((item ++ "-alt") ∈ (getComicItem env item).files ↔ c.Alt ≠ "")
    ∧ ((item ++ "-transcript") ∈ (getComicItem env item).files
        ↔ c.Transcript ≠ "")
    ∧ (lastSegment c.Img ∈ (getComicItem env item).files
        ↔ (c.Img ≠ "" ∧ lastSegment c.Img ≠ "")) := by
  have heval := getComicItem_success_eval item env c hmeta hs
  have hAT : item ++ "-alt" ≠ item ++ "-transcript" :=
    append_ne_of_suffix_ne item "-alt" "-transcript" (by decide)
  have hTA : item ++ "-transcript" ≠ item ++ "-alt" := fun h => hAT h.symm
  have hAI : item ++ "-alt" ≠ lastSegment c.Img := fun h => hcolA h.symm
  have hTI : item ++ "-transcript" ≠ lastSegment c.Img := fun h => hcolT h.symm
  have hAE : item ++ "-alt" ≠ "" := append_ne_empty item "-alt" (by decide)
  have hTE : item ++ "-transcript" ≠ "" := append_ne_empty item "-transcript" (by decide)
  rw [heval]
  refine ⟨rfl, ?_, ?_, ?_⟩
  · by_cases hA : c.Alt ≠ ""
    · simp [hA]
    · simp only [if_neg hA, List.nil_append]
      simp only [List.mem_append, List.mem_ite_nil_right, List.mem_singleton]
      simp [hA, hAT, hAI]
  · by_cases hT : c.Transcript ≠ ""
    · simp [hT]
    · simp only [List.mem_append, List.mem_ite_nil_right, List.mem_singleton]
      simp [hT, hTA, hTI]
  · by_cases hseg : lastSegment c.Img ≠ ""
    · have himg : c.Img ≠ "" := by
        intro h
        rw [h, lastSegment_empty] at hseg
        exact hseg rfl
      simp [hseg, himg]
    · simp only [List.mem_append, List.mem_ite_nil_right, List.mem_singleton]
      push_neg at hseg
      rw [hseg]
      simp only [ne_eq, not_true_eq_false, if_false, List.not_mem_nil, or_false,
        and_false, iff_false, not_or]
      simp
      exact ⟨fun _ h => hAE h.symm, fun _ h => hTE h.symm⟩

/-- An item whose decoded asset URL ends in a segment that collides with
the name of the alt metadata file while the `Alt` field itself is empty. -/
def envCollision : ItemEnv :=
  ⟨some (some ⟨1, "a/1-alt", "tr", ""⟩),
    true, true, true, true, true, true, true, true⟩

/-- Counterexample to C3 as stated: item `"1"` completes without error,
its decoded `Alt` field is empty, and yet its subdirectory does contain a
file named `1-alt` — the asset file, whose derived filename collides with
the alt metadata filename.  The "contains `{index}-alt` iff `Alt`
non-empty" biconditional is therefore false at this input. -/
theorem getComic_alt_file_iff_counterexample :
    (getComicItem envCollision "1").outcome = Outcome.complete
    ∧ (⟨1, "a/1-alt", "tr", ""⟩ : Comic).Alt = ""
    ∧ ("1" ++ "-alt") ∈ (getComicItem envCollision "1").files
    ∧ ¬ ((("1" ++ "-alt") ∈ (getComicItem envCollision "1").files)
          ↔ (⟨1, "a/1-alt", "tr", ""⟩ : Comic).Alt ≠ "") := by
  refine ⟨by decide, rfl, by decide, ?_⟩
  intro hiff
  have := hiff.mp (by decide)
  exact this rfl

/-- Witness for the amended C3 on a collision-free successful item. -/
theorem getComic_completeness_after_success_witness :
    ((getComicItem ⟨some (some ⟨2, "a/b.png", "", "al"⟩),
          true, true, true, true, true, true, true, true⟩ "2").files
        = (if (⟨2, "a/b.png", "", "al"⟩ : Comic).Alt ≠ "" then ["2" ++ "-alt"] else [])
          ++ (if (⟨2, "a/b.png", "", "al"⟩ : Comic).Transcript ≠ ""
              then ["2" ++ "-transcript"] else [])
          ++ (if lastSegment (⟨2, "a/b.png", "", "al"⟩ : Comic).Img ≠ ""
              then [lastSegment (⟨2, "a/b.png", "", "al"⟩ : Comic).Img] else [])
      ∧ (("2" ++ "-alt") ∈ (getComicItem ⟨some (some ⟨2, "a/b.png", "", "al"⟩),
            true, true, true, true, true, true, true, true⟩ "2").files
          ↔ (⟨2, "a/b.png", "", "al"⟩ : Comic).Alt ≠ "")
      ∧ (("2" ++ "-transcript") ∈ (getComicItem ⟨some (some ⟨2, "a/b.png", "", "al"⟩),
            true, true, true, true, true, true, true, true⟩ "2").files
          ↔ (⟨2, "a/b.png", "", "al"⟩ : Comic).Transcript ≠ "")
      ∧ (lastSegment (⟨2, "a/b.png", "", "al"⟩ : Comic).Img
            ∈ (getComicItem ⟨some (some ⟨2, "a/b.png", "", "al"⟩),
                true, true, true, true, true, true, true, true⟩ "2").files
          ↔ ((⟨2, "a/b.png", "", "al"⟩ : Comic).Img ≠ ""
              ∧ lastSegment (⟨2, "a/b.png", "", "al"⟩ : Comic).Img ≠ "")))
    ∧ (getComicItem ⟨some (some ⟨2, "a/b.png", "", "al"⟩),
          true, true, true, true, true, true, true, true⟩ "2").files
        = ["2-alt", "b.png"] :=
  ⟨getComic_completeness_after_success "2" _ ⟨2, "a/b.png", "", "al"⟩ rfl
      (Or.inl (by decide)) (by decide) (by decide),
   by decide⟩

/-- Embedding of `splitSlice(input, blockSize)` from `xkcd.go`: emit
`len(input)/blockSize` full blocks `input[b*B : b*B+B]`, plus one
remainder block `input[n*B : n*B+rem]` when `rem = len(input) mod B` is
non-zero. -/
def splitSlice (input : List String) (blockSize : Nat) : List (List String) :=
  let nFullBlocks := input.length / blockSize
  let rem := input.length % blockSize
  let fullBlocks := (List.range nFullBlocks).map
    (fun block => (input.drop (block * blockSize)).take blockSize)
  if rem ≠ 0 then
    fullBlocks ++ [(input.drop (nFullBlocks * blockSize)).take rem]
  else fullBlocks

lemma flatten_full_chunks (input : List String) (B : Nat) :
    ∀ n, ((List.range n).map (fun b => (input.drop (b * B)).take B)).flatten
      = input.take (n * B) := by
  intro n
  induction n with
  | zero => simp
  | succ k ih =>
    rw [List.range_succ, List.map_append, List.flatten_append, ih]
    simp only [List.map_cons, List.map_nil, List.flatten_cons, List.flatten_nil,
      List.append_nil]
    rw [Nat.succ_mul, List.take_add]

lemma full_chunk_length (input : List String) (B : Nat) (b : Nat)
    (hb : b < input.length / B) :
    ((input.drop (b * B)).take B).length = B := by
  have h1 : input.length / B * B ≤ input.length := Nat.div_mul_le_self _ _
  have h2 : (b + 1) * B ≤ input.length / B * B :=
    Nat.mul_le_mul_right B (Nat.succ_le_of_lt hb)
  have h3 : (b + 1) * B = b * B + B := by ring
  simp only [List.length_take, List.length_drop]
  omega

/-- C7: Batcher correctness.  For every input sequence and block size
`B ≥ 1`, `splitSlice` yields `⌈L/B⌉` chunks whose in-order concatenation
is the input, every chunk except possibly the last has exactly `B`
elements, every chunk has between 1 and `B` elements, and when
`L mod B ≠ 0` the final chunk has exactly `L mod B` elements. -/
theorem splitSlice_batching_correct (input : List String) (B : Nat)
    (hB : 1 ≤ B) :
    (splitSlice input B).length = (input.length + B - 1) / B
    ∧ (splitSlice input B).flatten = input
    ∧ (∀ c ∈ (splitSlice input B).dropLast, c.length = B)
    ∧ (∀ c ∈ splitSlice input B, 1 ≤ c.length ∧ c.length ≤ B)
    ∧ (input.length % B ≠ 0 →
        ∃ lastChunk, (splitSlice input B).getLast? = some lastChunk
          ∧ lastChunk.length = input.length % B) := by
  have hBpos : 0 < B := hB
  have hqr : B * (input.length / B) + input.length % B = input.length :=
    Nat.div_add_mod input.length B
  have hr : input.length % B < B := Nat.mod_lt _ hBpos
  have hqB : input.length / B * B = B * (input.length / B) := Nat.mul_comm _ _
  have hmemlen : ∀ c ∈ (List.range (input.length / B)).map
      (fun b => (input.drop (b * B)).take B), c.length = B := by
    intro c hc
    rcases List.mem_map.mp hc with ⟨b, hb, rfl⟩
    exact full_chunk_length input B b (List.mem_range.mp hb)
  by_cases hrem : input.length % B ≠ 0
  · have hsplit : splitSlice input B
        = (List.range (input.length / B)).map
            (fun b => (input.drop (b * B)).take B)
          ++ [(input.drop (input.length / B * B)).take (input.length % B)] := by
      simp [splitSlice, hrem]
    have hlastlen :
        ((input.drop (input.length / B * B)).take (input.length % B)).length
          = input.length % B := by
      simp only [List.length_take, List.length_drop]
      omega
    refine ⟨?_, ?_, ?_, ?_, ?_⟩
    · rw [hsplit]
      simp only [List.length_append, List.length_map, List.length_range,
        List.length_singleton]
      have hBq : B * (input.length / B + 1) = B * (input.length / B) + B := by
        ring
      have hL : input.length + B - 1
          = B * (input.length / B + 1) + (input.length % B - 1) := by
        rw [hBq]; omega
      have hz : (input.length % B - 1) / B = 0 := Nat.div_eq_of_lt (by omega)
      rw [hL, Nat.mul_add_div hBpos, hz]
    · rw [hsplit, List.flatten_append, flatten_full_chunks]
      simp only [List.flatten_cons, List.flatten_nil, List.append_nil]
      rw [← List.take_add]
      have hLen : input.length / B * B + input.length % B = input.length := by
        omega
      rw [hLen, List.take_length]
    · rw [hsplit, List.dropLast_concat]
      exact hmemlen
    · intro c hc
      rw [hsplit] at hc
      rcases List.mem_append.mp hc with hc | hc
      · rw [hmemlen c hc]
        omega
      · simp only [List.mem_singleton] at hc
        rw [hc, hlastlen]
        omega
    · intro _
      refine ⟨(input.drop (input.length / B * B)).take (input.length % B),
        ?_, hlastlen⟩
      rw [hsplit]
      exact List.getLast?_concat _
  · push_neg at hrem
    have hsplit : splitSlice input B
        = (List.range (input.length / B)).map
            (fun b => (input.drop (b * B)).take B) := by
      simp [splitSlice, hrem]
    have hfull : input.length / B * B = input.length := by omega
    refine ⟨?_, ?_, ?_, ?_, ?_⟩
    · rw [hsplit]
      simp only [List.length_map, List.length_range]
      have hL : input.length + B - 1
          = B * (input.length / B) + (B - 1) := by
        omega
      have hz : (B - 1) / B = 0 := Nat.div_eq_of_lt (by omega)
      rw [hL, Nat.mul_add_div hBpos, hz, Nat.add_zero]
    · rw [hsplit, flatten_full_chunks, hfull, List.take_length]
    · intro c hc
      rw [hsplit] at hc
      exact hmemlen c (List.mem_of_mem_dropLast hc)
    · intro c hc
      rw [hsplit] at hc
      rw [hmemlen c hc]
      omega
    · intro h
      exact absurd hrem h

/-- Witness for C7 on a three-element input with block size 2. -/
theorem splitSlice_batching_correct_witness :
    ((splitSlice ["a", "b", "c"] 2).length = (3 + 2 - 1) / 2
      ∧ (splitSlice ["a", "b", "c"] 2).flatten = ["a", "b", "c"]
      ∧ (∀ c ∈ (splitSlice ["a", "b", "c"] 2).dropLast, c.length = 2)
      ∧ (∀ c ∈ splitSlice ["a", "b", "c"] 2, 1 ≤ c.length ∧ c.length ≤ 2)
      ∧ ((3 : Nat) % 2 ≠ 0 →
          ∃ lastChunk, (splitSlice ["a", "b", "c"] 2).getLast? = some lastChunk
            ∧ lastChunk.length = 3 % 2))
    ∧ splitSlice ["a", "b", "c"] 2 = [["a", "b"], ["c"]] := by
  have h := splitSlice_batching_correct ["a", "b", "c"] 2 (by decide)
  simp only [List.length_cons, List.length_nil] at h
  exact ⟨h, by decide⟩

/-- Lifecycle of one spawned worker goroutine in `getComic`: not yet
spawned by the `for` loop, spawned and blocked on the token send, in
flight (token held, between acquisition and the deferred release), or
finished (token released). -/
inductive WStatus
  | idle
  | waiting
  | inFlight
  | done
deriving DecidableEq

/-- Global state of the worker pool: per-worker status (index-aligned with
the `dlList` of missing items), per-worker count of started fetch attempts,
and the occupancy of the buffered token channel. -/
structure PoolState where
  status : List WStatus
  attempts : List Nat
  tokens : Nat
deriving DecidableEq

/-- Interleaving semantics of the semaphore-bounded pool in `getComic`.
`spawn` models the `go func(item)` statement, `acquire` the send on the
buffered channel `tokens` of capacity `cap` (enabled only while the channel
holds fewer than `cap` tokens, exactly Go's blocking-send rule), and
`release` the deferred receive that gives the token back whatever the
worker body did. -/
inductive PoolStep (cap : Nat) : PoolState → PoolState → Prop
  | spawn (s : PoolState) (i : Nat) (h : s.status[i]? = some WStatus.idle) :
      PoolStep cap s ⟨s.status.set i WStatus.waiting, s.attempts, s.tokens⟩
  | acquire (s : PoolState) (i : Nat)
      (h : s.status[i]? = some WStatus.waiting) (hcap : s.tokens < cap) :
      PoolStep cap s
        ⟨s.status.set i WStatus.inFlight,
         s.attempts.set i ((s.attempts[i]?.getD 0) + 1),
         s.tokens + 1⟩
  | release (s : PoolState) (i : Nat)
      (h : s.status[i]? = some WStatus.inFlight) :
      PoolStep cap s ⟨s.status.set i WStatus.done, s.attempts, s.tokens - 1⟩

/-- Initial pool state for `n` missing items: nothing spawned, channel
empty. -/
def initState (n : Nat) : PoolState :=
  ⟨List.replicate n WStatus.idle, List.replicate n 0, 0⟩

/-- A pool state the run can actually be in at some instant. -/
def Reachable (cap n : Nat) (s : PoolState) : Prop :=
  Relation.ReflTransGen (PoolStep cap) (initState n) s

/-- Number of workers currently between token acquisition and release. -/
def inFlightCount (s : PoolState) : Nat :=
  s.status.countP (fun st => decide (st = WStatus.inFlight))

/-- Inductive invariant of the pool: sizes are fixed, the channel holds one
token per in-flight worker, occupancy never exceeds the capacity, and a
worker's attempt counter is 1 from the moment it acquires its token and 0
before. -/
def PoolInv (cap n : Nat) (s : PoolState) : Prop :=
  s.status.length = n
  ∧ s.attempts.length = n
  ∧ s.tokens = inFlightCount s
  ∧ s.tokens ≤ cap
  ∧ ∀ i, i < n →
      s.attempts[i]?
        = some (if s.status[i]? = some WStatus.inFlight
                  ∨ s.status[i]? = some WStatus.done then 1 else 0)

lemma countP_replicate_idle (n : Nat) :
    (List.replicate n WStatus.idle).countP
      (fun st => decide (st = WStatus.inFlight)) = 0 := by
  induction n with
  | zero => rfl
  | succ k ih => simp [List.replicate, List.countP_cons, ih]

lemma getElem?_replicate_lt {α : Type} (a : α) (n i : Nat) (h : i < n) :
    (List.replicate n a)[i]? = some a := by
  induction n generalizing i with
  | zero => omega
  | succ k ih =>
    cases i with
    | zero => rw [List.replicate_succ, List.getElem?_cons_zero]
    | succ j =>
      rw [List.replicate_succ, List.getElem?_cons_succ]
      exact ih j (by omega)

lemma countP_set_eq (p : WStatus → Bool) (l : List WStatus) :
    ∀ (i : Nat) (a old : WStatus), l[i]? = some old →
      (l.set i a).countP p + (if p old then 1 else 0)
        = l.countP p + (if p a then 1 else 0) := by
  induction l with
  | nil => intro i a old h; simp at h
  | cons x t ih =>
    intro i a old h
    cases i with
    | zero =>
      rw [List.getElem?_cons_zero] at h
      injection h with h
      subst h
      simp only [List.set_cons_zero, List.countP_cons]
      omega
    | succ j =>
      rw [List.getElem?_cons_succ] at h
      simp only [List.set_cons_succ, List.countP_cons]
      have := ih j a old h
      omega

lemma poolInv_init (cap n : Nat) : PoolInv cap n (initState n) := by
  refine ⟨by simp [initState], by simp [initState], ?_, by simp [initState], ?_⟩
  · simp [initState, inFlightCount, countP_replicate_idle]
  · intro i hi
    have hs : (List.replicate n WStatus.idle)[i]? = some WStatus.idle :=
      getElem?_replicate_lt _ n i hi
    have ha : (List.replicate n (0 : Nat))[i]? = some 0 :=
      getElem?_replicate_lt _ n i hi
    simp [initState, hs, ha]

lemma getElem?_set_self {α : Type} (l : List α) (i : Nat) (a : α)
    (h : i < l.length) :
    (l.set i a)[i]? = some a := by
  induction l generalizing i with
  | nil => simp at h
  | cons x t ih =>
    cases i with
    | zero => rw [List.set_cons_zero, List.getElem?_cons_zero]
    | succ j =>
      rw [List.set_cons_succ, List.getElem?_cons_succ]
      exact ih j (by simpa using h)

lemma getElem?_set_ne {α : Type} (l : List α) (i j : Nat) (a : α)
    (hne : i ≠ j) :
    (l.set i a)[j]? = l[j]? := by
  induction l generalizing i j with
  | nil => simp
  | cons x t ih =>
    cases i with
    | zero =>
      cases j with
      | zero => exact absurd rfl hne
      | succ k =>
        rw [List.set_cons_zero, List.getElem?_cons_succ, List.getElem?_cons_succ]
    | succ i' =>
      cases j with
      | zero => rw [List.set_cons_succ, List.getElem?_cons_zero, List.getElem?_cons_zero]
      | succ k =>
        rw [List.set_cons_succ, List.getElem?_cons_succ, List.getElem?_cons_succ]
        exact ih i' k (fun h => hne (by rw [h]))

lemma poolStep_inv (cap n : Nat) (s t : PoolState)
    (hstep : PoolStep cap s t) (hinv : PoolInv cap n s) : PoolInv cap n t := by
  rcases hinv with ⟨hlen, halen, htok, hcap, hatt⟩
  cases hstep with
  | spawn i h =>
    rcases List.getElem?_eq_some.mp h with ⟨hilt, _⟩
    have hcount := countP_set_eq (fun st => decide (st = WStatus.inFlight))
      s.status i WStatus.waiting WStatus.idle h
    simp at hcount
    refine ⟨by simpa using hlen, halen, ?_, hcap, ?_⟩
    · dsimp only
      simp only [inFlightCount] at htok ⊢
      omega
    · intro j hj
      dsimp only
      rcases eq_or_ne i j with rfl | hne
      · rw [getElem?_set_self s.status i WStatus.waiting hilt]
        rw [hatt i hj, h]
        simp
      · rw [getElem?_set_ne s.status i j WStatus.waiting hne]
        exact hatt j hj
  | acquire i h hcaplt =>
    rcases List.getElem?_eq_some.mp h with ⟨hilt, _⟩
    have hialt : i < s.attempts.length := by omega
    have hcount := countP_set_eq (fun st => decide (st = WStatus.inFlight))
      s.status i WStatus.inFlight WStatus.waiting h
    simp at hcount
    refine ⟨by simpa using hlen, by simpa using halen, ?_, by dsimp only; omega, ?_⟩
    · dsimp only
      simp only [inFlightCount] at htok ⊢
      omega
    · intro j hj
      dsimp only
      rcases eq_or_ne i j with rfl | hne
      · rw [getElem?_set_self s.status i WStatus.inFlight hilt,
          getElem?_set_self s.attempts i _ hialt]
        rw [hatt i hj, h]
        simp
      · rw [getElem?_set_ne s.status i j WStatus.inFlight hne,
          getElem?_set_ne s.attempts i j _ hne]
        exact hatt j hj
  | release i h =>
    rcases List.getElem?_eq_some.mp h with ⟨hilt, hget⟩
    have hcount := countP_set_eq (fun st => decide (st = WStatus.inFlight))
      s.status i WStatus.done WStatus.inFlight h
    simp at hcount
    have hpos : 0 < inFlightCount s := by
      simp only [inFlightCount]
      refine List.countP_pos_iff.mpr ⟨WStatus.inFlight, ?_, by simp⟩
      rw [← hget]
      exact List.getElem_mem hilt
    refine ⟨by simpa using hlen, halen, ?_, by dsimp only; omega, ?_⟩
    · dsimp only
      simp only [inFlightCount] at htok hpos ⊢
      omega
    · intro j hj
      dsimp only
      rcases eq_or_ne i j with rfl | hne
      · rw [getElem?_set_self s.status i WStatus.done hilt]
        rw [hatt i hj, h]
        simp
      · rw [getElem?_set_ne s.status i j WStatus.done hne]
        exact hatt j hj

lemma reachable_inv (cap n : Nat) (s : PoolState) (h : Reachable cap n s) :
    PoolInv cap n s := by
  induction h with
  | refl => exact poolInv_init cap n
  | tail _ hstep ih => exact poolStep_inv cap n _ _ hstep ih

/-- C2: bounded concurrency and exactly-once dispatch.  In every state any
interleaved execution of the semaphore pool can reach, the number of
workers between token acquisition and release never exceeds the configured
capacity `cap` (= `rateLimit`), no worker has started its fetch more than
once, and when the run has finished (all workers done, the barrier
`wg.Wait()` passed) every one of the `n` missing identifiers has been
attempted exactly once. -/
theorem pool_bounded_concurrency (cap n : Nat) (s : PoolState)
    (h : Reachable cap n s) :
    inFlightCount s ≤ cap
    ∧ (∀ i, i < n → ∃ a, s.attempts[i]? = some a ∧ a ≤ 1)
    ∧ ((∀ st ∈ s.status, st = WStatus.done) →
        ∀ i, i < n → s.attempts[i]? = some 1) := by
  rcases reachable_inv cap n s h with ⟨hlen, halen, htok, hcap, hatt⟩
  refine ⟨by rw [← htok]; exact hcap, ?_, ?_⟩
  · intro i hi
    refine ⟨_, hatt i hi, ?_⟩
    split <;> omega
  · intro hdone i hi
    rw [hatt i hi]
    have hilt : i < s.status.length := by omega
    have hstat : s.status[i]? = some WStatus.done := by
      rw [List.getElem?_eq_getElem hilt]
      exact congrArg some (hdone _ (List.getElem_mem hilt))
    rw [hstat]
    simp

/-- Witness for C2: with `rateLimit = 1` and one missing item, the state
after spawning the worker and letting it acquire the token is reachable;
the theorem instantiated there bounds the in-flight count by 1. -/
theorem pool_bounded_concurrency_witness :
    inFlightCount ⟨[WStatus.inFlight], [1], 1⟩ ≤ 1
    ∧ (∀ i, i < 1 →
        ∃ a, (PoolState.mk [WStatus.inFlight] [1] 1).attempts[i]? = some a ∧ a ≤ 1)
    ∧ ((∀ st ∈ [WStatus.inFlight], st = WStatus.done) →
        ∀ i, i < 1 → (PoolState.mk [WStatus.inFlight] [1] 1).attempts[i]? = some 1) := by
  have hstep1 : PoolStep 1 (initState 1) ⟨[WStatus.waiting], [0], 0⟩ :=
    PoolStep.spawn (initState 1) 0 (by decide)
  have hstep2 : PoolStep 1 ⟨[WStatus.waiting], [0], 0⟩ ⟨[WStatus.inFlight], [1], 1⟩ :=
    PoolStep.acquire ⟨[WStatus.waiting], [0], 0⟩ 0 (by decide) (by decide)
  have hreach : Reachable 1 1 ⟨[WStatus.inFlight], [1], 1⟩ :=
    Relation.ReflTransGen.tail
      (Relation.ReflTransGen.tail Relation.ReflTransGen.refl hstep1) hstep2
  exact pool_bounded_concurrency 1 1 ⟨[WStatus.inFlight], [1], 1⟩ hreach

/-- The trailing-separator normalization at the top of `main`:
`(*dbPath)[len(*dbPath)-1]` indexes the final byte, so the empty string
panics (index out of range, modelled as `none`); otherwise `"/"` is
appended exactly when the last character is not `'/'`.  (In valid UTF-8 the
final byte equals `'/'` iff the final character does, so the character-level
check is faithful to Go's byte-level one.) -/
def normalizePath (dbPath : String) : Option String :=
  match dbPath.data.getLast? with
  | none => none
  | some c => some (if c ≠ '/' then dbPath ++ "/" else dbPath)

/-- Run-level oracle record: the `latestComicNum` result (`none` = error),
the `os.Stat`/`os.Mkdir` outcomes for the archive root, and the per-path
stat oracle used by the scan. -/
structure RunEnv where
  latest : Option Nat
  dbRootStat : StatResult
  mkdirRootOk : Bool
  stat : String → StatResult

/-- How `main` ends: a panic in the path normalization, a `log.Fatalln`
exit, or a normal run that dispatched exactly the listed missing items to
the fetch pool (the empty list means the "no missing comics" early
return). -/
inductive RunOutcome
  | panic
  | fatalExit
  | done (fetched : List String)
deriving DecidableEq

/-- Embedding of `main` up to the dispatch of the missing list: normalize
the path (panic on empty), probe the latest comic (fatal on error), create
the archive root if absent (fatal on `os.Mkdir` error), scan, and hand the
missing list to `getComic`. -/
def mainRun (dbPath : String) (env : RunEnv) : RunOutcome :=
  match normalizePath dbPath with
  | none => RunOutcome.panic
  | some p =>
    match env.latest with
    | none => RunOutcome.fatalExit
    | some numComics =>
      if env.dbRootStat = StatResult.notExist ∧ env.mkdirRootOk = false then
        RunOutcome.fatalExit
      else RunOutcome.done (missingComics numComics p env.stat)

lemma string_ne_empty_data {s : String} (hs : s ≠ "") : s.data ≠ [] := by
  intro h
  apply hs
  cases s with
  | mk l =>
    simp only at h
    rw [h]

/-- C9: archive-path normalization totality.  On the empty path string the
very first statement of `main` panics — for every environment, before any
network or filesystem oracle is consulted.  On every non-empty path the
normalization succeeds and returns the path with exactly one `'/'`
appended iff it did not already end in `'/'`; the result always ends in
`'/'`. -/
theorem dbPath_normalization_totality (env : RunEnv) (s : String)
    (hs : s ≠ "") :
    mainRun "" env = RunOutcome.panic
    ∧ ∃ r, normalizePath s = some r
        ∧ (s.data.getLast? = some '/' → r = s)
        ∧ (s.data.getLast? ≠ some '/' → r = s ++ "/")
        ∧ r.data.getLast? = some '/' := by
  refine ⟨rfl, ?_⟩
  have hd : s.data ≠ [] := string_ne_empty_data hs
  cases hl : s.data.getLast? with
  | none => exact absurd (List.getLast?_eq_none_iff.mp hl) hd
  | some c =>
    by_cases hc : c = '/'
    · subst hc
      refine ⟨s, ?_, fun _ => rfl, fun hne => absurd rfl hne, hl⟩
      simp [normalizePath, hl]
    · refine ⟨s ++ "/", ?_, ?_, fun _ => rfl, ?_⟩
      · simp [normalizePath, hl, hc]
      · intro hsl
        injection hsl with hsl
        exact absurd hsl hc
      · have hdata : (s ++ "/").data = s.data ++ ['/'] := by
          cases s with
          | mk l => rfl
        rw [hdata]
        exact List.getLast?_concat _

/-- Witness for C9 at the path `"db"` (and its concrete evaluation). -/
theorem dbPath_normalization_totality_witness :
    (mainRun "" ⟨some 2, StatResult.ok, true, fun _ => StatResult.notExist⟩
        = RunOutcome.panic
      ∧ ∃ r, normalizePath "db" = some r
          ∧ ("db".data.getLast? = some '/' → r = "db")
          ∧ ("db".data.getLast? ≠ some '/' → r = "db" ++ "/")
          ∧ r.data.getLast? = some '/')
    ∧ normalizePath "db" = some "db/"
    ∧ normalizePath "db/" = some "db/" :=
  ⟨dbPath_normalization_totality
      ⟨some 2, StatResult.ok, true, fun _ => StatResult.notExist⟩ "db"
      (by decide),
   by decide, by decide⟩

/-- C10: stat-error classification.  An index whose stat fails with an
error that is not `os.IsNotExist` (for instance permission denied) is
silently treated as present: it never appears in the missing set and is
never dispatched to the fetch pool, and the run carries no error for it. -/
theorem missingComics_stat_error_excluded (N i : Nat) (dbPath : String)
    (stat : String → StatResult)
    (hstat : stat (dbPath ++ itoa i) = StatResult.otherError) :
    itoa i ∉ missingComics N dbPath stat
    ∧ ∀ (rawPath : String) (env : RunEnv) (fetched : List String),
        env.stat = stat →
        normalizePath rawPath = some dbPath →
        mainRun rawPath env = RunOutcome.done fetched →
        itoa i ∉ fetched := by
  have hnotinAll : ∀ M, itoa i ∉ missingComics M dbPath stat := by
    intro M hmem
    rw [missingComics_eq] at hmem
    rcases List.mem_map.mp hmem with ⟨j, hj, hji⟩
    rcases List.mem_filter.mp hj with ⟨_, hpj⟩
    have hpath : dbPath ++ itoa j = dbPath ++ itoa i := by rw [hji]
    simp only [missingPred, Bool.and_eq_true, decide_eq_true_eq] at hpj
    rcases hpj with ⟨_, hex⟩
    rw [hpath, hstat] at hex
    simp [isNotExist] at hex
  refine ⟨hnotinAll N, ?_⟩
  intro rawPath env fetched hstatenv hnorm hrun
  cases hl : env.latest with
  | none =>
    simp only [mainRun, hnorm, hl] at hrun
    exact RunOutcome.noConfusion hrun
  | some M =>
    simp only [mainRun, hnorm, hl] at hrun
    by_cases hfs : env.dbRootStat = StatResult.notExist ∧ env.mkdirRootOk = false
    · rw [if_pos hfs] at hrun
      exact RunOutcome.noConfusion hrun
    · rw [if_neg hfs] at hrun
      injection hrun with hrun
      rw [← hrun, hstatenv]
      exact hnotinAll M

/-- Witness for C10: with a permission-style stat failure on the path of
index 2, index 2 is not in the missing list even though its directory does
not exist. -/
theorem missingComics_stat_error_excluded_witness :
    (itoa 2 ∉ missingComics 3 "db/"
        (fun pth => if pth == "db/2" then StatResult.otherError
                    else StatResult.notExist)
      ∧ ∀ (rawPath : String) (env : RunEnv) (fetched : List String),
          env.stat = (fun pth => if pth == "db/2" then StatResult.otherError
                    else StatResult.notExist) →
          normalizePath rawPath = some "db/" →
          mainRun rawPath env = RunOutcome.done fetched →
          itoa 2 ∉ fetched)
    ∧ missingComics 3 "db/"
        (fun pth => if pth == "db/2" then StatResult.otherError
                    else StatResult.notExist) = ["1", "3"] :=
  ⟨missingComics_stat_error_excluded 3 2 "db/" _ (by decide), by decide⟩

/-- C8: idempotence.  If after a first run every item of its missing set
has its subdirectory on disk (`stat₁` reports success there) and no
directory that existed before has disappeared, then a second scan of the
same catalog extent `N` computes an empty missing set, and a second `main`
run over that filesystem dispatches zero items to the fetch pool. -/
theorem pipeline_idempotent (N : Nat) (dbPath : String)
    (stat₀ stat₁ : String → StatResult)
    (hcompl : ∀ s ∈ missingComics N dbPath stat₀,
        stat₁ (dbPath ++ s) = StatResult.ok)
    (hpres : ∀ pth, isNotExist (stat₀ pth) = false →
        isNotExist (stat₁ pth) = false) :
    missingComics N dbPath stat₁ = []
    ∧ ∀ (rawPath : String) (env : RunEnv),
        normalizePath rawPath = some dbPath →
        env.latest = some N →
        env.stat = stat₁ →
        (env.dbRootStat = StatResult.notExist → env.mkdirRootOk = true) →
        mainRun rawPath env = RunOutcome.done [] := by
  have hempty : missingComics N dbPath stat₁ = [] := by
    rw [missingComics_eq]
    have hfil : (List.range' 1 N).filter (missingPred dbPath stat₁) = [] := by
      rw [List.filter_eq_nil_iff]
      intro j hj hp
      simp only [missingPred, Bool.and_eq_true, decide_eq_true_eq] at hp
      rcases hp with ⟨hj404, hex1⟩
      cases hex : isNotExist (stat₀ (dbPath ++ itoa j)) with
      | false =>
        have := hpres _ hex
        rw [this] at hex1
        exact Bool.noConfusion hex1
      | true =>
        have hmem : itoa j ∈ missingComics N dbPath stat₀ := by
          rw [missingComics_eq]
          exact List.mem_map.mpr
            ⟨j, List.mem_filter.mpr ⟨hj, by simp [missingPred, hj404, hex]⟩, rfl⟩
        have hok := hcompl _ hmem
        rw [hok] at hex1
        simp [isNotExist] at hex1
    rw [hfil, List.map_nil]
  refine ⟨hempty, ?_⟩
  intro rawPath env hnorm hlatest hstatenv hroot
  have hfs : ¬ (env.dbRootStat = StatResult.notExist ∧ env.mkdirRootOk = false) := by
    rintro ⟨h1, h2⟩
    rw [hroot h1] at h2
    exact Bool.noConfusion h2
  simp only [mainRun, hnorm, hlatest, if_neg hfs, hstatenv, hempty]

/-- Witness for C8: a two-comic catalog fully downloaded by the first run
yields an empty second scan and a second run that fetches nothing. -/
theorem pipeline_idempotent_witness :
    (missingComics 2 "db/" (fun _ => StatResult.ok) = []
      ∧ ∀ (rawPath : String) (env : RunEnv),
          normalizePath rawPath = some "db/" →
          env.latest = some 2 →
          env.stat = (fun _ => StatResult.ok) →
          (env.dbRootStat = StatResult.notExist → env.mkdirRootOk = true) →
          mainRun rawPath env = RunOutcome.done [])
    ∧ missingComics 2 "db/" (fun _ => StatResult.notExist) = ["1", "2"]
    ∧ mainRun "db"
        ⟨some 2, StatResult.ok, true, fun _ => StatResult.ok⟩
        = RunOutcome.done [] :=
  ⟨pipeline_idempotent 2 "db/" (fun _ => StatResult.notExist)
      (fun _ => StatResult.ok)
      (fun s _ => rfl)
      (fun pth h => by simp [isNotExist] at h),
   by decide, by decide⟩
